import Mathlib

set_option maxHeartbeats 1000000
set_option maxRecDepth 4000

namespace TreeChat

/-- One conversation turn, mirroring class `Node` in tree.py (lines 11-17).
Ids are opaque unique identifiers in the source (uuid4 strings); they are
modelled here as natural numbers issued by a monotone counter carried in
`ChatTree.next_id`: a freshly generated id is distinct from every id issued
before, which is the contract uuid4 provides. -/
structure Node where
  id : Nat
  content : String
  parent_id : Option Nat
  children : List Nat
  is_user : Bool
  deriving DecidableEq

/-- First-match lookup in an association list, mirroring Python dict lookup
`self.nodes[k]` / `k in self.nodes` (keys are unique by construction). -/
def findNode (k : Nat) : List (Nat × Node) → Option Node
  | [] => none
  | e :: es => if e.1 = k then some e.2 else findNode k es

/-- The conversation tree, mirroring class `ChatTree` in tree.py (lines 19-31).
`nodes` is the insertion-ordered id-to-node mapping (Python dicts preserve
insertion order); `root_id` mirrors `self.root_id`; `next_id` is the id
generator counter standing in for uuid4 (never reset, since uuids are never
reused). -/
structure ChatTree where
  nodes : List (Nat × Node)
  root_id : Option Nat
  next_id : Nat
  deriving DecidableEq

/-- The state produced by `ChatTree()`: empty mapping, no root. -/
def ChatTree.init : ChatTree := ⟨[], none, 0⟩

/-- A copy of `nd` with `cid` appended to its children, the effect of
`children.append(node.id)` (tree.py line 29). -/
def addChild (cid : Nat) (nd : Node) : Node :=
  ⟨nd.id, nd.content, nd.parent_id, nd.children ++ [cid], nd.is_user⟩

/-- Append `cid` to the children list of the entry keyed `p`, mirroring
`self.nodes[parent_id].children.append(node.id)` (tree.py line 29). -/
def updChildren (p cid : Nat) (ns : List (Nat × Node)) : List (Nat × Node) :=
  ns.map fun e => if e.1 = p then (e.1, addChild cid e.2) else e

/-- `ChatTree.add_node` (tree.py lines 24-31): create a node with a fresh id;
if no root exists the new node becomes the root (`if not self.root_id`),
otherwise (`elif`) if the supplied parent id resolves, the new id is appended
to that parent's children; in all cases the node is stored and its id
returned. -/
def ChatTree.add_node (t : ChatTree) (content : String) (parent_id : Option Nat)
    (is_user : Bool) : Nat × ChatTree :=
  let node : Node := ⟨t.next_id, content, parent_id, [], is_user⟩
  let t1 : ChatTree :=
    if t.root_id = none then ⟨t.nodes, some node.id, t.next_id⟩
    else
      match parent_id with
      | some p =>
        if (findNode p t.nodes).isSome then ⟨updChildren p node.id t.nodes, t.root_id, t.next_id⟩
        else t
      | none => t
  (node.id, ⟨t1.nodes ++ [(node.id, node)], t1.root_id, t.next_id + 1⟩)

/-- `init_chat_tree` (tree.py lines 43-48), also the body of the `/reset`
endpoint (lines 126-129): clear `nodes` and `root_id`, then (the cleared
mapping being empty) add the fixed greeting as the new root. The id counter
is not reset: uuid4 never reissues an id. -/
def init_chat_tree (t : ChatTree) : ChatTree :=
  let t0 : ChatTree := ⟨[], none, t.next_id⟩
  if t0.nodes.isEmpty then (t0.add_node "Hello! How can I assist you today?" none false).2
  else t0

/-- The history-building walk of the chat handler (tree.py lines 86-91):
starting from a given id, repeatedly follow `parent_id` while the current id
is present and resolves in the mapping, collecting the visited nodes
root-first (the Python loop prepends with `messages.insert(0, ...)`). The
Python `while` loop carries no bound; the `fuel` argument makes the
recursion structural, and the development proves that `fuel = nodes.length`
already reaches the fixed point on reachable states. -/
def chainNodes (ns : List (Nat × Node)) : Nat → Option Nat → List Node
  | _, none => []
  | 0, some _ => []
  | fuel + 1, some k =>
    match findNode k ns with
    | none => []
    | some nd => chainNodes ns fuel nd.parent_id ++ [nd]

/-- One `{role, content}` turn sent to the completion provider. -/
structure Msg where
  role : String
  content : String
  deriving DecidableEq

/-- Role/content view of a node (tree.py lines 89-90). -/
def Node.toMsg (nd : Node) : Msg := ⟨if nd.is_user then "user" else "assistant", nd.content⟩

/-- The ordered message history the handler sends to the provider
(tree.py lines 84-93): the walk from `parent_id`, mapped to turns, with the
new prompt appended as the final user turn. -/
def historyOf (t : ChatTree) (parent_id : Option Nat) (prompt : String) : List Msg :=
  (chainNodes t.nodes t.nodes.length parent_id).map Node.toMsg ++ [⟨"user", prompt⟩]

/-- The `{id, content, parent_id, is_user}` view the handler returns
(tree.py lines 77-82 and 113-118). -/
structure NodeView where
  id : Nat
  content : String
  parent_id : Option Nat
  is_user : Bool
  deriving DecidableEq

/-- Typed failures of the chat operation: the missing-credential rejection
(tree.py lines 66-68, HTTP 400) and a failure of the external completion
call (tree.py lines 95-101, which the handler does not catch, so it
propagates to the caller). -/
inductive ChatError where
  | credentialMissing
  | providerError
  deriving DecidableEq

/-- Result of a successful chat operation: the single created user view, or
the list of reply views (tree.py lines 77-82, 120). -/
inductive ChatResult where
  | userView (v : NodeView)
  | replies (vs : List NodeView)
  deriving DecidableEq

/-- The Python credential check `if not api_key` (tree.py line 67): an
absent header or an empty string is rejected. -/
def credentialAbsent : Option String → Bool
  | none => true
  | some k => k == ""

/-- One step of the reply-deduplication loop (tree.py lines 104-118):
`unique_responses` is a dict keyed by reply content, so a candidate is
skipped exactly when its content equals the content of an already created
view; otherwise a node is added under the same `parent_id` and its view is
appended. -/
def replyStep (parent_id : Option Nat) (acc : List NodeView × ChatTree) (c : String) :
    List NodeView × ChatTree :=
  if (acc.1.map NodeView.content).contains c then acc
  else
    let r := acc.2.add_node c parent_id false
    (acc.1 ++ [⟨r.1, c, parent_id, false⟩], r.2)

/-- The `/chat` handler (tree.py lines 63-120). The external completion
provider (the OpenAI call at lines 95-101) is a black-box function from the
ordered history to either an error or the ordered list of candidate
contents (`response.choices`); an exception from it propagates uncaught,
modelled as `ChatError.providerError`. The credential check happens first;
a user turn then adds one node and returns its view; otherwise the history
is built, the provider invoked, and one node per unique candidate content
is created, all under the supplied `parent_id`. -/
def chat (t : ChatTree) (prompt : String) (parent_id : Option Nat) (is_user : Bool)
    (api_key : Option String) (provider : List Msg → Except Unit (List String)) :
    Except ChatError ChatResult × ChatTree :=
  if credentialAbsent api_key then (.error .credentialMissing, t)
  else
    if is_user then
      let r := t.add_node prompt parent_id true
      (.ok (.userView ⟨r.1, prompt, parent_id, true⟩), r.2)
    else
      match provider (historyOf t parent_id prompt) with
      | .error _ => (.error .providerError, t)
      | .ok choices =>
        let r := choices.foldl (replyStep parent_id) ([], t)
        (.ok (.replies r.1), r.2)

/-- Order-preserving deduplication of candidate strings with a running
`seen` accumulator; `dedupFirst` below starts it empty. Uniqueness is exact
string equality, first occurrence wins, mirroring the dict-keyed loop at
tree.py lines 104-118. -/
def foldlDedup (seen : List String) (cs : List String) : List String :=
  cs.foldl (fun acc c => if acc.contains c then acc else acc ++ [c]) seen

/-- The unique candidate contents, first-occurrence order preserved. -/
def dedupFirst (cs : List String) : List String := foldlDedup [] cs

/-- Side condition on a caller-supplied parent reference: it only mentions
ids the generator has already issued. This models the unpredictability of
uuid4: a caller cannot name an id that has not been generated yet (it may
freely name a stale id from before a reset, which no longer resolves). -/
def PidOk (t : ChatTree) (parent_id : Option Nat) : Prop :=
  ∀ p, parent_id = some p → p < t.next_id

/-- Tree states reachable from `ChatTree()` by any interleaving of
`add_node` calls (with caller-supplied parent references satisfying
`PidOk`) and `init_chat_tree` resets; the startup initialization
(tree.py lines 51-53) and both mutation paths of the chat handler go
through exactly these operations. -/
inductive Reachable : ChatTree → Prop where
  | init : Reachable ChatTree.init
  | add (t : ChatTree) (content : String) (parent_id : Option Nat) (is_user : Bool)
      (ht : Reachable t) (hp : PidOk t parent_id) :
      Reachable (t.add_node content parent_id is_user).2
  | reset (t : ChatTree) (ht : Reachable t) : Reachable (init_chat_tree t)

/-- Concrete sample state: the tree right after startup initialization
(one greeting node with id 0). -/
def sampleTree : ChatTree := init_chat_tree ChatTree.init

/-- Concrete sample state: the startup tree with one user turn "Hi" added
under the greeting root (ids 0 and 1). -/
def sampleTree2 : ChatTree := (sampleTree.add_node "Hi" (some 0) true).2

theorem findNode_append_left {k : Nat} {ns ms : List (Nat × Node)} {nd : Node}
    (h : findNode k ns = some nd) : findNode k (ns ++ ms) = some nd := by
  induction ns with
  | nil => simp [findNode] at h
  | cons e es ih =>
    by_cases he : e.1 = k
    · simp [findNode, he] at h ⊢; exact h
    · simp [findNode, he] at h ⊢; exact ih h

theorem findNode_append_right {k : Nat} {ns ms : List (Nat × Node)}
    (h : findNode k ns = none) : findNode k (ns ++ ms) = findNode k ms := by
  induction ns with
  | nil => simp
  | cons e es ih =>
    by_cases he : e.1 = k
    · simp [findNode, he] at h
    · simp [findNode, he] at h ⊢; exact ih h

theorem findNode_mem {k : Nat} {ns : List (Nat × Node)} {nd : Node}
    (h : findNode k ns = some nd) : (k, nd) ∈ ns := by
  induction ns with
  | nil => simp [findNode] at h
  | cons e es ih =>
    by_cases he : e.1 = k
    · simp [findNode, he] at h
      subst h
      have hke : (k, e.2) = e := Prod.ext_iff.mpr ⟨he.symm, rfl⟩
      rw [hke]
      exact List.mem_cons_self e es
    · simp [findNode, he] at h
      exact List.mem_cons_of_mem _ (ih h)

theorem findNode_singleton {n k : Nat} {nd : Node} :
    findNode k [(n, nd)] = if n = k then some nd else none := rfl

theorem findNode_updChildren (p cid k : Nat) (ns : List (Nat × Node)) :
    findNode k (updChildren p cid ns) =
      if k = p then (findNode k ns).map (addChild cid) else findNode k ns := by
  induction ns with
  | nil => simp [updChildren, findNode]
  | cons e es ih =>
    by_cases hep : e.1 = p <;> by_cases hek : e.1 = k
    · have hkp : k = p := by omega
      simp [updChildren, findNode, hep, hek, hkp]
    · have hkp : ¬ k = p := by omega
      have hpk : ¬ p = k := by omega
      simp [updChildren, hkp] at ih
      simp [updChildren, findNode, hep, hek, hkp, hpk, ih]
    · have hkp : ¬ k = p := by omega
      simp [updChildren, findNode, hep, hek, hkp]
    · simpa [updChildren, findNode, hep, hek] using ih

theorem findNode_upd_ne {p cid k : Nat} {ns : List (Nat × Node)} (hne : k ≠ p) :
    findNode k (updChildren p cid ns) = findNode k ns := by
  rw [findNode_updChildren]
  simp [hne]

theorem findNode_upd_self {p cid : Nat} {ns : List (Nat × Node)} :
    findNode p (updChildren p cid ns) = (findNode p ns).map (addChild cid) := by
  rw [findNode_updChildren]
  simp

theorem updChildren_length {p cid : Nat} {ns : List (Nat × Node)} :
    (updChildren p cid ns).length = ns.length := List.length_map _ _

theorem add_node_fst (t : ChatTree) (c : String) (pid : Option Nat) (u : Bool) :
    (t.add_node c pid u).1 = t.next_id := rfl

theorem add_node_next (t : ChatTree) (c : String) (pid : Option Nat) (u : Bool) :
    (t.add_node c pid u).2.next_id = t.next_id + 1 := rfl

theorem add_node_eq_root_none {t : ChatTree} (c : String) (pid : Option Nat) (u : Bool)
    (hr : t.root_id = none) :
    (t.add_node c pid u).2 =
      ⟨t.nodes ++ [(t.next_id, ⟨t.next_id, c, pid, [], u⟩)], some t.next_id, t.next_id + 1⟩ := by
  simp [ChatTree.add_node, hr]

theorem add_node_eq_dangling {t : ChatTree} (c : String) (pid : Option Nat) (u : Bool)
    (hr : t.root_id ≠ none) (hd : ∀ p, pid = some p → findNode p t.nodes = none) :
    (t.add_node c pid u).2 =
      ⟨t.nodes ++ [(t.next_id, ⟨t.next_id, c, pid, [], u⟩)], t.root_id, t.next_id + 1⟩ := by
  cases pid with
  | none => simp [ChatTree.add_node, hr]
  | some p => simp [ChatTree.add_node, hr, hd p rfl]

theorem add_node_eq_resolving {t : ChatTree} (c : String) {p : Nat} (u : Bool)
    (hr : t.root_id ≠ none) (hres : (findNode p t.nodes).isSome) :
    (t.add_node c (some p) u).2 =
      ⟨updChildren p t.next_id t.nodes ++ [(t.next_id, ⟨t.next_id, c, some p, [], u⟩)],
        t.root_id, t.next_id + 1⟩ := by
  simp [ChatTree.add_node, hr, hres]

theorem add_node_length (t : ChatTree) (c : String) (pid : Option Nat) (u : Bool) :
    (t.add_node c pid u).2.nodes.length = t.nodes.length + 1 := by
  by_cases hr : t.root_id = none
  · rw [add_node_eq_root_none c pid u hr]; simp
  · cases pid with
    | none => rw [add_node_eq_dangling c none u hr (by intro p hp; cases hp)]; simp
    | some p =>
      by_cases hres : (findNode p t.nodes).isSome
      · rw [add_node_eq_resolving c u hr hres]
        simp [updChildren_length]
      · rw [add_node_eq_dangling c (some p) u hr
          (by intro q hq; cases hq; exact Option.not_isSome_iff_eq_none.mp hres)]
        simp

theorem addChild_id (cid : Nat) (nd : Node) : (addChild cid nd).id = nd.id := rfl

theorem addChild_parent (cid : Nat) (nd : Node) :
    (addChild cid nd).parent_id = nd.parent_id := rfl

theorem addChild_children (cid : Nat) (nd : Node) :
    (addChild cid nd).children = nd.children ++ [cid] := rfl

theorem findNode_snoc_cases {ns : List (Nat × Node)} {n k : Nat} {node nd : Node}
    (h : findNode k (ns ++ [(n, node)]) = some nd) :
    (findNode k ns = some nd) ∨ (k = n ∧ nd = node ∧ findNode k ns = none) := by
  rcases hk : findNode k ns with _ | nd₀
  · right
    rw [findNode_append_right hk, findNode_singleton] at h
    by_cases he : n = k
    · rw [if_pos he] at h
      exact ⟨he.symm, (Option.some_inj.mp h).symm, rfl⟩
    · rw [if_neg he] at h; cases h
  · left
    rw [findNode_append_left hk] at h
    exact h

theorem findNode_upd_snoc_cases {ns : List (Nat × Node)} {p n k : Nat} {node nd : Node}
    (h : findNode k (updChildren p n ns ++ [(n, node)]) = some nd) :
    (k ≠ p ∧ findNode k ns = some nd)
    ∨ (k = p ∧ ∃ nd₀, findNode k ns = some nd₀ ∧ nd = addChild n nd₀)
    ∨ (k = n ∧ nd = node ∧ findNode k ns = none) := by
  rcases hk : findNode k ns with _ | nd₀
  · right; right
    have hnone : findNode k (updChildren p n ns) = none := by
      rw [findNode_updChildren]
      split <;> simp [hk]
    rw [findNode_append_right hnone, findNode_singleton] at h
    by_cases he : n = k
    · rw [if_pos he] at h
      exact ⟨he.symm, (Option.some_inj.mp h).symm, rfl⟩
    · rw [if_neg he] at h; cases h
  · by_cases hkp : k = p
    · right; left
      have hsome : findNode k (updChildren p n ns) = some (addChild n nd₀) := by
        rw [hkp, findNode_upd_self, ← hkp, hk]; rfl
      rw [findNode_append_left hsome] at h
      exact ⟨hkp, nd₀, rfl, (Option.some_inj.mp h).symm⟩
    · left
      have hsome : findNode k (updChildren p n ns) = some nd₀ := by
        rw [findNode_upd_ne hkp]; exact hk
      rw [findNode_append_left hsome] at h
      exact ⟨hkp, h⟩

theorem findNode_snoc_new {ns : List (Nat × Node)} {n : Nat} {node : Node}
    (hfresh : findNode n ns = none) : findNode n (ns ++ [(n, node)]) = some node := by
  rw [findNode_append_right hfresh, findNode_singleton, if_pos rfl]

theorem findNode_upd_snoc_old {ns : List (Nat × Node)} {p n c : Nat} {node nd₀ : Node}
    (h : findNode c ns = some nd₀) :
    findNode c (updChildren p n ns ++ [(n, node)]) =
      some (if c = p then addChild n nd₀ else nd₀) := by
  by_cases hcp : c = p
  · subst hcp
    have hs : findNode c (updChildren c n ns) = some (addChild n nd₀) := by
      rw [findNode_upd_self, h]; rfl
    rw [findNode_append_left hs, if_pos rfl]
  · have hs : findNode c (updChildren p n ns) = some nd₀ := by
      rw [findNode_upd_ne hcp]; exact h
    rw [findNode_append_left hs, if_neg hcp]

theorem findNode_upd_snoc_new {ns : List (Nat × Node)} {p n : Nat} {node : Node}
    (hfresh : findNode n ns = none) :
    findNode n (updChildren p n ns ++ [(n, node)]) = some node := by
  have hnone : findNode n (updChildren p n ns) = none := by
    rw [findNode_updChildren]
    split <;> simp [hfresh]
  rw [findNode_append_right hnone, findNode_singleton, if_pos rfl]

/-- The structural invariant that every reachable tree state satisfies:
keys are the stored nodes' own ids; all keys are below the id counter;
any resolving or dangling parent reference was issued strictly before its
node (so parent links strictly decrease, precluding cycles); children lists
point only at stored nodes whose parent is the list's owner; a node whose
parent reference resolves sits in that parent's children exactly once; and
a rootless tree is empty. -/
structure Inv (t : ChatTree) : Prop where
  keyId : ∀ k nd, findNode k t.nodes = some nd → nd.id = k
  keyLt : ∀ k nd, findNode k t.nodes = some nd → k < t.next_id
  parentLt : ∀ k nd, findNode k t.nodes = some nd → ∀ p, nd.parent_id = some p → p < k
  childMem : ∀ k nd, findNode k t.nodes = some nd → ∀ c ∈ nd.children,
      ∃ cnd, findNode c t.nodes = some cnd ∧ cnd.parent_id = some k
  childCount : ∀ k nd, findNode k t.nodes = some nd → ∀ p, nd.parent_id = some p →
      ∀ pnd, findNode p t.nodes = some pnd → pnd.children.count k = 1
  rootNil : t.root_id = none → t.nodes = []

theorem Inv.fresh {t : ChatTree} (hI : Inv t) : findNode t.next_id t.nodes = none := by
  rcases h : findNode t.next_id t.nodes with _ | nd₀
  · rfl
  · exact absurd (hI.keyLt _ _ h) (lt_irrefl _)

theorem count_eq_zero_of_lt {l : List Nat} {n : Nat} (h : ∀ c ∈ l, c < n) :
    l.count n = 0 := by
  rw [List.count_eq_zero]
  intro hm
  exact absurd (h n hm) (lt_irrefl _)

theorem count_snoc_ne {l : List Nat} {a b : Nat} (h : a ≠ b) :
    (l ++ [b]).count a = l.count a := by
  simp [List.count_append, h]

theorem count_snoc_self (l : List Nat) (b : Nat) :
    (l ++ [b]).count b = l.count b + 1 := by
  simp [List.count_append]

theorem inv_extend (t : ChatTree) (hI : Inv t) (c : String) (pid : Option Nat) (u : Bool)
    (r : Option Nat) (hp : PidOk t pid)
    (hdangle : ∀ p, pid = some p → findNode p t.nodes = none) (hr : r ≠ none) :
    Inv ⟨t.nodes ++ [(t.next_id, ⟨t.next_id, c, pid, [], u⟩)], r, t.next_id + 1⟩ := by
  constructor
  · intro k nd h
    rcases findNode_snoc_cases h with h' | ⟨hkn, hnd, -⟩
    · exact hI.keyId _ _ h'
    · rw [hnd, hkn]
  · intro k nd h
    show k < t.next_id + 1
    rcases findNode_snoc_cases h with h' | ⟨hkn, -, -⟩
    · have := hI.keyLt _ _ h'
      omega
    · omega
  · intro k nd h p hpp
    rcases findNode_snoc_cases h with h' | ⟨hkn, hnd, -⟩
    · exact hI.parentLt _ _ h' p hpp
    · rw [hnd] at hpp
      rw [hkn]
      exact hp p hpp
  · intro k nd h c' hc'
    rcases findNode_snoc_cases h with h' | ⟨hkn, hnd, -⟩
    · obtain ⟨cnd, hcnd, hpar⟩ := hI.childMem _ _ h' c' hc'
      exact ⟨cnd, findNode_append_left hcnd, hpar⟩
    · rw [hnd] at hc'
      simp at hc'
  · intro k nd h p hpp pnd hpnd
    rcases findNode_snoc_cases h with h' | ⟨hkn, hnd, -⟩
    · have hplt : p < k := hI.parentLt _ _ h' p hpp
      have hklt : k < t.next_id := hI.keyLt _ _ h'
      rcases findNode_snoc_cases hpnd with h'' | ⟨hpn, -, -⟩
      · exact hI.childCount _ _ h' p hpp _ h''
      · omega
    · rw [hnd] at hpp
      have hd := hdangle p hpp
      rcases findNode_snoc_cases hpnd with h'' | ⟨hpn, -, -⟩
      · rw [hd] at h''
        exact Option.noConfusion h''
      · have := hp p hpp
        omega
  · intro h
    exact absurd h hr

theorem inv_extend_resolving (t : ChatTree) (hI : Inv t) (c : String) (p : Nat) (u : Bool)
    (r : Option Nat) (hplt : p < t.next_id) (hr : r ≠ none) :
    Inv ⟨updChildren p t.next_id t.nodes ++ [(t.next_id, ⟨t.next_id, c, some p, [], u⟩)],
      r, t.next_id + 1⟩ := by
  have hfresh := hI.fresh
  constructor
  · intro k nd h
    rcases findNode_upd_snoc_cases h with ⟨-, h'⟩ | ⟨hkp, nd₀, h₀, hnd⟩ | ⟨hkn, hnd, -⟩
    · exact hI.keyId _ _ h'
    · rw [hnd, addChild_id]
      exact hI.keyId _ _ h₀
    · rw [hnd, hkn]
  · intro k nd h
    show k < t.next_id + 1
    rcases findNode_upd_snoc_cases h with ⟨-, h'⟩ | ⟨hkp, nd₀, h₀, hnd⟩ | ⟨hkn, -, -⟩
    · have := hI.keyLt _ _ h'
      omega
    · have := hI.keyLt _ _ h₀
      omega
    · omega
  · intro k nd h q hq
    rcases findNode_upd_snoc_cases h with ⟨-, h'⟩ | ⟨hkp, nd₀, h₀, hnd⟩ | ⟨hkn, hnd, -⟩
    · exact hI.parentLt _ _ h' q hq
    · rw [hnd, addChild_parent] at hq
      exact hI.parentLt _ _ h₀ q hq
    · rw [hnd] at hq
      have hq2 : (some p : Option Nat) = some q := hq
      injection hq2 with he
      subst he
      rw [hkn]
      exact hplt
  · intro k nd h c' hc'
    rcases findNode_upd_snoc_cases h with ⟨-, h'⟩ | ⟨hkp, nd₀, h₀, hnd⟩ | ⟨hkn, hnd, -⟩
    · obtain ⟨cnd, hcnd, hpar⟩ := hI.childMem _ _ h' c' hc'
      refine ⟨_, findNode_upd_snoc_old hcnd, ?_⟩
      split
      · rw [addChild_parent]
        exact hpar
      · exact hpar
    · rw [hnd, addChild_children] at hc'
      rcases List.mem_append.mp hc' with hold | hnew
      · obtain ⟨cnd, hcnd, hpar⟩ := hI.childMem _ _ h₀ c' hold
        refine ⟨_, findNode_upd_snoc_old hcnd, ?_⟩
        split
        · rw [addChild_parent]
          exact hpar
        · exact hpar
      · have hc'' : c' = t.next_id := by simpa using hnew
        subst hc''
        refine ⟨_, findNode_upd_snoc_new hfresh, ?_⟩
        rw [hkp]
    · rw [hnd] at hc'
      simp at hc'
  · intro k nd h q hq pnd hpnd
    rcases findNode_upd_snoc_cases h with ⟨hkp, h'⟩ | ⟨hkp, nd₀, h₀, hnd⟩ | ⟨hkn, hnd, -⟩
    · have hqlt : q < k := hI.parentLt _ _ h' q hq
      have hklt : k < t.next_id := hI.keyLt _ _ h'
      rcases findNode_upd_snoc_cases hpnd with ⟨-, h''⟩ | ⟨hqp, qnd₀, h₀', hpnd'⟩ | ⟨hqn, -, -⟩
      · exact hI.childCount _ _ h' q hq _ h''
      · have hbase := hI.childCount _ _ h' q hq _ h₀'
        rw [hpnd', addChild_children, count_snoc_ne (by omega : k ≠ t.next_id)]
        exact hbase
      · omega
    · rw [hnd, addChild_parent] at hq
      have hqlt : q < k := hI.parentLt _ _ h₀ q hq
      have hklt : k < t.next_id := hI.keyLt _ _ h₀
      rcases findNode_upd_snoc_cases hpnd with ⟨-, h''⟩ | ⟨hqp, qnd₀, h₀', hpnd'⟩ | ⟨hqn, -, -⟩
      · exact hI.childCount _ _ h₀ q hq _ h''
      · have hbase := hI.childCount _ _ h₀ q hq _ h₀'
        rw [hpnd', addChild_children, count_snoc_ne (by omega : k ≠ t.next_id)]
        exact hbase
      · omega
    · rw [hnd] at hq
      have hq2 : (some p : Option Nat) = some q := hq
      injection hq2 with he
      subst he
      rcases findNode_upd_snoc_cases hpnd with ⟨hne, -⟩ | ⟨-, qnd₀, h₀', hpnd'⟩ | ⟨hqn, -, -⟩
      · exact absurd rfl hne
      · have hzero : qnd₀.children.count t.next_id = 0 := by
          refine count_eq_zero_of_lt ?_
          intro c' hc'
          obtain ⟨cnd, hcnd, -⟩ := hI.childMem _ _ h₀' c' hc'
          exact hI.keyLt _ _ hcnd
        rw [hpnd', addChild_children, hkn, count_snoc_self, hzero]
      · omega
  · intro h
    exact absurd h hr

theorem inv_empty (m : Nat) : Inv ⟨[], none, m⟩ := by
  refine ⟨?_, ?_, ?_, ?_, ?_, fun _ => rfl⟩ <;> intro k nd h <;> simp [findNode] at h

theorem init_chat_tree_eq (t : ChatTree) :
    init_chat_tree t =
      ⟨[(t.next_id, ⟨t.next_id, "Hello! How can I assist you today?", none, [], false⟩)],
        some t.next_id, t.next_id + 1⟩ := rfl

theorem inv_reset (t : ChatTree) : Inv (init_chat_tree t) := by
  rw [init_chat_tree_eq]
  have h := inv_extend ⟨[], none, t.next_id⟩ (inv_empty t.next_id)
    "Hello! How can I assist you today?" none false (some t.next_id)
    (fun p hp => Option.noConfusion hp) (fun p hp => Option.noConfusion hp) (by simp)
  simpa using h

theorem inv_add {t : ChatTree} (hI : Inv t) (c : String) (pid : Option Nat) (u : Bool)
    (hp : PidOk t pid) : Inv (t.add_node c pid u).2 := by
  by_cases hr : t.root_id = none
  · rw [add_node_eq_root_none c pid u hr]
    exact inv_extend t hI c pid u (some t.next_id) hp
      (fun p _ => by rw [hI.rootNil hr]; rfl) (by simp)
  · cases pid with
    | none =>
      rw [add_node_eq_dangling c none u hr (fun p hpp => Option.noConfusion hpp)]
      exact inv_extend t hI c none u t.root_id hp (fun p hpp => Option.noConfusion hpp) hr
    | some p =>
      by_cases hres : (findNode p t.nodes).isSome
      · rw [add_node_eq_resolving c u hr hres]
        exact inv_extend_resolving t hI c p u t.root_id (hp p rfl) hr
      · have hd : ∀ q, (some p : Option Nat) = some q → findNode q t.nodes = none := by
          intro q hq
          injection hq with hq'
          subst hq'
          exact Option.not_isSome_iff_eq_none.mp hres
        rw [add_node_eq_dangling c (some p) u hr hd]
        exact inv_extend t hI c (some p) u t.root_id hp hd hr

theorem reachable_inv {t : ChatTree} (h : Reachable t) : Inv t := by
  induction h with
  | init => exact inv_empty 0
  | add t c pid u ht hp ih => exact inv_add ih c pid u hp
  | reset t ht ih => exact inv_reset t

theorem chainNodes_none (ns : List (Nat × Node)) (fuel : Nat) :
    chainNodes ns fuel none = [] := by
  cases fuel <;> rfl

theorem chainNodes_zero (ns : List (Nat × Node)) (cur : Option Nat) :
    chainNodes ns 0 cur = [] := by
  cases cur <;> rfl

theorem chainNodes_succ_none {ns : List (Nat × Node)} {k : Nat} (fuel : Nat)
    (hk : findNode k ns = none) : chainNodes ns (fuel + 1) (some k) = [] := by
  show (match findNode k ns with
    | none => []
    | some nd => chainNodes ns fuel nd.parent_id ++ [nd]) = []
  rw [hk]

theorem chainNodes_succ_some {ns : List (Nat × Node)} {k : Nat} {nd : Node} (fuel : Nat)
    (hk : findNode k ns = some nd) :
    chainNodes ns (fuel + 1) (some k) = chainNodes ns fuel nd.parent_id ++ [nd] := by
  show (match findNode k ns with
    | none => []
    | some nd => chainNodes ns fuel nd.parent_id ++ [nd]) = _
  rw [hk]

theorem getLast?_snoc (l : List α) (a : α) : (l ++ [a]).getLast? = some a := by
  rw [List.getLast?_append_cons]
  rfl

theorem chainNodes_getLast {ns : List (Nat × Node)}
    (hid : ∀ k nd, findNode k ns = some nd → nd.id = k)
    {fuel k : Nat} {last : Node}
    (h : (chainNodes ns fuel (some k)).getLast? = some last) :
    last.id = k ∧ findNode k ns = some last := by
  cases fuel with
  | zero =>
    rw [chainNodes_zero] at h
    cases h
  | succ fuel =>
    rcases hk : findNode k ns with _ | nd
    · rw [chainNodes_succ_none fuel hk] at h
      cases h
    · rw [chainNodes_succ_some fuel hk, getLast?_snoc] at h
      have hnd : nd = last := Option.some_inj.mp h
      constructor
      · rw [← hnd]
        exact hid k nd hk
      · rw [← hnd]

theorem chainNodes_chain' {ns : List (Nat × Node)}
    (hid : ∀ k nd, findNode k ns = some nd → nd.id = k) :
    ∀ (fuel : Nat) (cur : Option Nat),
      List.Chain' (fun a b => b.parent_id = some a.id) (chainNodes ns fuel cur) := by
  intro fuel
  induction fuel with
  | zero =>
    intro cur
    rw [chainNodes_zero]
    exact List.chain'_nil
  | succ fuel ih =>
    intro cur
    cases cur with
    | none =>
      rw [chainNodes_none]
      exact List.chain'_nil
    | some k =>
      rcases hk : findNode k ns with _ | nd
      · rw [chainNodes_succ_none fuel hk]
        exact List.chain'_nil
      · rw [chainNodes_succ_some fuel hk]
        refine List.chain'_append.mpr ⟨ih _, List.chain'_singleton _, ?_⟩
        intro x hx y hy
        have hy' : nd = y := by simpa using hy
        subst hy'
        rcases hpar : nd.parent_id with _ | q
        · rw [hpar, chainNodes_none] at hx
          simp at hx
        · rw [hpar] at hx
          obtain ⟨hxid, -⟩ := chainNodes_getLast hid hx
          rw [hxid]

theorem chainNodes_id_le {ns : List (Nat × Node)}
    (hid : ∀ k nd, findNode k ns = some nd → nd.id = k)
    (hdec : ∀ k nd, findNode k ns = some nd → ∀ p, nd.parent_id = some p → p < k) :
    ∀ (fuel k : Nat) (x : Node), x ∈ chainNodes ns fuel (some k) → x.id ≤ k := by
  intro fuel
  induction fuel with
  | zero =>
    intro k x hx
    rw [chainNodes_zero] at hx
    cases hx
  | succ fuel ih =>
    intro k x hx
    rcases hk : findNode k ns with _ | nd
    · rw [chainNodes_succ_none fuel hk] at hx
      cases hx
    · rw [chainNodes_succ_some fuel hk] at hx
      rcases List.mem_append.mp hx with hx' | hx'
      · rcases hpar : nd.parent_id with _ | q
        · rw [hpar, chainNodes_none] at hx'
          cases hx'
        · rw [hpar] at hx'
          have hq := hdec k nd hk q hpar
          have := ih q x hx'
          omega
      · have hx'' : x = nd := by simpa using hx'
        subst hx''
        have := hid k x hk
        omega

/-- The number of entries whose key is at most `p`, the measure showing the
history walk strictly shrinks its search space at every step. -/
def keysLe (ns : List (Nat × Node)) (p : Nat) : Nat :=
  (ns.filter (fun e => decide (e.1 ≤ p))).length

def keysLeO (ns : List (Nat × Node)) : Option Nat → Nat
  | none => 0
  | some p => keysLe ns p

theorem keysLe_mono (ns : List (Nat × Node)) {q p : Nat} (h : q ≤ p) :
    keysLe ns q ≤ keysLe ns p := by
  induction ns with
  | nil => simp [keysLe]
  | cons e es ih =>
    simp only [keysLe, List.filter_cons] at ih ⊢
    by_cases h1 : e.1 ≤ q
    · have h2 : e.1 ≤ p := le_trans h1 h
      simp [h1, h2]
      omega
    · by_cases h2 : e.1 ≤ p
      · simp [h1, h2]
        omega
      · simp [h1, h2]
        exact ih

theorem keysLe_lt {ns : List (Nat × Node)} {q p : Nat} {nd : Node} (hq : q < p)
    (hmem : (p, nd) ∈ ns) : keysLe ns q < keysLe ns p := by
  induction hmem with
  | head es =>
    simp only [keysLe, List.filter_cons]
    have h1 : ¬ (p ≤ q) := by omega
    have hm := keysLe_mono es (le_of_lt hq)
    simp only [keysLe] at hm
    simp [h1]
    omega
  | tail e hmem ih =>
    simp only [keysLe, List.filter_cons] at ih ⊢
    by_cases h1 : e.1 ≤ q
    · have h2 : e.1 ≤ p := by omega
      simp [h1, h2]
      omega
    · by_cases h2 : e.1 ≤ p
      · simp [h1, h2]
        omega
      · simp [h1, h2]
        exact ih

theorem keysLe_le_length (ns : List (Nat × Node)) (p : Nat) :
    keysLe ns p ≤ ns.length := List.length_filter_le _ _

theorem keysLe_pos {ns : List (Nat × Node)} {p : Nat} {nd : Node}
    (h : findNode p ns = some nd) : 0 < keysLe ns p := by
  have hmem : (p, nd) ∈ ns.filter (fun e => decide (e.1 ≤ p)) :=
    List.mem_filter.mpr ⟨findNode_mem h, by simp⟩
  exact List.length_pos_of_mem hmem

theorem chainNodes_stab_aux {ns : List (Nat × Node)}
    (hdec : ∀ k nd, findNode k ns = some nd → ∀ p, nd.parent_id = some p → p < k) :
    ∀ (fuel : Nat) (cur : Option Nat), keysLeO ns cur ≤ fuel →
      chainNodes ns (fuel + 1) cur = chainNodes ns fuel cur := by
  intro fuel
  induction fuel with
  | zero =>
    intro cur h
    cases cur with
    | none => rw [chainNodes_none, chainNodes_none]
    | some p =>
      rcases hk : findNode p ns with _ | nd
      · rw [chainNodes_succ_none 0 hk, chainNodes_zero]
      · have := keysLe_pos hk
        simp only [keysLeO] at h
        omega
  | succ fuel ih =>
    intro cur h
    cases cur with
    | none => rw [chainNodes_none, chainNodes_none]
    | some p =>
      rcases hk : findNode p ns with _ | nd
      · rw [chainNodes_succ_none (fuel + 1) hk, chainNodes_succ_none fuel hk]
      · rw [chainNodes_succ_some (fuel + 1) hk, chainNodes_succ_some fuel hk]
        congr 1
        apply ih
        rcases hpar : nd.parent_id with _ | q
        · simp [keysLeO]
        · have hqp : q < p := hdec p nd hk q hpar
          have hlt := keysLe_lt hqp (findNode_mem hk)
          simp only [keysLeO] at h ⊢
          omega

theorem chainNodes_stab {ns : List (Nat × Node)}
    (hdec : ∀ k nd, findNode k ns = some nd → ∀ p, nd.parent_id = some p → p < k)
    (cur : Option Nat) (extra : Nat) :
    chainNodes ns (ns.length + extra) cur = chainNodes ns ns.length cur := by
  induction extra with
  | zero => rfl
  | succ extra ih =>
    have hb : keysLeO ns cur ≤ ns.length + extra := by
      cases cur with
      | none => simp [keysLeO]
      | some p =>
        have := keysLe_le_length ns p
        simp only [keysLeO]
        omega
    calc chainNodes ns (ns.length + (extra + 1)) cur
        = chainNodes ns ((ns.length + extra) + 1) cur := rfl
      _ = chainNodes ns (ns.length + extra) cur := chainNodes_stab_aux hdec _ cur hb
      _ = chainNodes ns ns.length cur := ih

theorem chat_no_key (t : ChatTree) (prompt : String) (pid : Option Nat) (u : Bool)
    (provider : List Msg → Except Unit (List String)) :
    chat t prompt pid u none provider = (.error .credentialMissing, t) := rfl

theorem chat_user (t : ChatTree) (prompt : String) (pid : Option Nat) (key : String)
    (provider : List Msg → Except Unit (List String)) (hk : key ≠ "") :
    chat t prompt pid true (some key) provider =
      (.ok (.userView ⟨t.next_id, prompt, pid, true⟩), (t.add_node prompt pid true).2) := by
  simp [chat, credentialAbsent, hk, add_node_fst]

theorem chat_replies_error (t : ChatTree) (prompt : String) (pid : Option Nat) (key : String)
    (provider : List Msg → Except Unit (List String)) (hk : key ≠ "")
    (hp : provider (historyOf t pid prompt) = .error ()) :
    chat t prompt pid false (some key) provider = (.error .providerError, t) := by
  simp [chat, credentialAbsent, hk, hp]

theorem chat_replies_ok (t : ChatTree) (prompt : String) (pid : Option Nat) (key : String)
    (provider : List Msg → Except Unit (List String)) (cs : List String) (hk : key ≠ "")
    (hp : provider (historyOf t pid prompt) = .ok cs) :
    chat t prompt pid false (some key) provider =
      (.ok (.replies (cs.foldl (replyStep pid) ([], t)).1),
        (cs.foldl (replyStep pid) ([], t)).2) := by
  simp [chat, credentialAbsent, hk, hp]

/-- Everything the reply loop guarantees about one created view: its fresh
id sits above the parent and below the counter, it carries the supplied
parent and the assistant tag, and the tree stores a matching node. -/
def ViewOk (p : Nat) (t : ChatTree) (v : NodeView) : Prop :=
  p < v.id ∧ v.id < t.next_id ∧ v.parent_id = some p ∧ v.is_user = false ∧
  ∃ nd, findNode v.id t.nodes = some nd ∧ nd.content = v.content ∧
    nd.parent_id = some p ∧ nd.is_user = false

theorem dangling_of_not_isSome {t : ChatTree} {p : Nat}
    (hres : ¬ (findNode p t.nodes).isSome) :
    ∀ q, (some p : Option Nat) = some q → findNode q t.nodes = none := by
  intro q hq
  injection hq with hpq
  subst hpq
  exact Option.not_isSome_iff_eq_none.mp hres

theorem findNode_add_node {t : ChatTree} {c : String} {pid : Option Nat} {u : Bool}
    {k : Nat} {nd : Node} (h : findNode k (t.add_node c pid u).2.nodes = some nd) :
    (∃ nd₀, findNode k t.nodes = some nd₀) ∨ k = t.next_id := by
  by_cases hr : t.root_id = none
  · rw [add_node_eq_root_none c pid u hr] at h
    rcases findNode_snoc_cases h with h' | ⟨hkn, -, -⟩
    · exact Or.inl ⟨_, h'⟩
    · exact Or.inr hkn
  · cases pid with
    | none =>
      rw [add_node_eq_dangling c none u hr (fun q hq => Option.noConfusion hq)] at h
      rcases findNode_snoc_cases h with h' | ⟨hkn, -, -⟩
      · exact Or.inl ⟨_, h'⟩
      · exact Or.inr hkn
    | some p =>
      by_cases hres : (findNode p t.nodes).isSome
      · rw [add_node_eq_resolving c u hr hres] at h
        rcases findNode_upd_snoc_cases h with ⟨-, h'⟩ | ⟨-, nd₀, h₀, -⟩ | ⟨hkn, -, -⟩
        · exact Or.inl ⟨_, h'⟩
        · exact Or.inl ⟨_, h₀⟩
        · exact Or.inr hkn
      · rw [add_node_eq_dangling c (some p) u hr (dangling_of_not_isSome hres)] at h
        rcases findNode_snoc_cases h with h' | ⟨hkn, -, -⟩
        · exact Or.inl ⟨_, h'⟩
        · exact Or.inr hkn

theorem add_node_keyLt {t : ChatTree}
    (hkey : ∀ k nd, findNode k t.nodes = some nd → k < t.next_id)
    (c : String) (pid : Option Nat) (u : Bool) :
    ∀ k nd, findNode k (t.add_node c pid u).2.nodes = some nd →
      k < (t.add_node c pid u).2.next_id := by
  intro k nd h
  rw [add_node_next]
  rcases findNode_add_node h with ⟨nd₀, h₀⟩ | hkn
  · have := hkey _ _ h₀
    omega
  · omega

theorem fresh_of_keyLt {t : ChatTree}
    (hkey : ∀ k nd, findNode k t.nodes = some nd → k < t.next_id) :
    findNode t.next_id t.nodes = none := by
  rcases h : findNode t.next_id t.nodes with _ | nd
  · rfl
  · have := hkey _ _ h
    omega

theorem ViewOk_add {t : ChatTree} {p : Nat} {v : NodeView}
    (hv : ViewOk p t v) (c : String) (u : Bool) :
    ViewOk p (t.add_node c (some p) u).2 v := by
  obtain ⟨h1, h2, h3, h4, nd, hnd, hc, hpar, hu⟩ := hv
  refine ⟨h1, ?_, h3, h4, nd, ?_, hc, hpar, hu⟩
  · rw [add_node_next]
    omega
  · by_cases hr : t.root_id = none
    · rw [add_node_eq_root_none c (some p) u hr]
      exact findNode_append_left hnd
    · by_cases hres : (findNode p t.nodes).isSome
      · rw [add_node_eq_resolving c u hr hres]
        have hud : findNode v.id (updChildren p t.next_id t.nodes) = some nd := by
          rw [findNode_upd_ne (by omega : v.id ≠ p)]
          exact hnd
        exact findNode_append_left hud
      · rw [add_node_eq_dangling c (some p) u hr (dangling_of_not_isSome hres)]
        exact findNode_append_left hnd

theorem ViewOk_new {t : ChatTree} {p : Nat}
    (hkey : ∀ k nd, findNode k t.nodes = some nd → k < t.next_id)
    (hlt : p < t.next_id) (c : String) :
    ViewOk p (t.add_node c (some p) false).2 ⟨t.next_id, c, some p, false⟩ := by
  have hfresh := fresh_of_keyLt hkey
  refine ⟨hlt, ?_, rfl, rfl, ⟨t.next_id, c, some p, [], false⟩, ?_, rfl, rfl, rfl⟩
  · show t.next_id < (t.add_node c (some p) false).2.next_id
    rw [add_node_next]
    omega
  · by_cases hr : t.root_id = none
    · rw [add_node_eq_root_none c (some p) false hr]
      exact findNode_snoc_new hfresh
    · by_cases hres : (findNode p t.nodes).isSome
      · rw [add_node_eq_resolving c false hr hres]
        exact findNode_upd_snoc_new hfresh
      · rw [add_node_eq_dangling c (some p) false hr (dangling_of_not_isSome hres)]
        exact findNode_snoc_new hfresh

theorem replyFold_spec (p : Nat) :
    ∀ (cs : List String) (t : ChatTree) (vs : List NodeView),
      (∀ k nd, findNode k t.nodes = some nd → k < t.next_id) →
      p < t.next_id →
      (∀ v ∈ vs, ViewOk p t v) →
      ((cs.foldl (replyStep (some p)) (vs, t)).1.map NodeView.content
          = foldlDedup (vs.map NodeView.content) cs)
      ∧ ((cs.foldl (replyStep (some p)) (vs, t)).2.nodes.length + vs.length
          = t.nodes.length + (cs.foldl (replyStep (some p)) (vs, t)).1.length)
      ∧ (∀ v ∈ (cs.foldl (replyStep (some p)) (vs, t)).1,
          ViewOk p (cs.foldl (replyStep (some p)) (vs, t)).2 v) := by
  intro cs
  induction cs with
  | nil =>
    intro t vs hkey hlt hvs
    exact ⟨rfl, rfl, hvs⟩
  | cons c cs ih =>
    intro t vs hkey hlt hvs
    rw [List.foldl_cons]
    by_cases hdup : (vs.map NodeView.content).contains c
    · have hstep : replyStep (some p) (vs, t) c = (vs, t) := by
        simp only [replyStep]
        rw [if_pos hdup]
      have hded : foldlDedup (vs.map NodeView.content) (c :: cs)
          = foldlDedup (vs.map NodeView.content) cs := by
        simp only [foldlDedup, List.foldl_cons]
        rw [if_pos hdup]
      rw [hstep, hded]
      exact ih t vs hkey hlt hvs
    · have hstep : replyStep (some p) (vs, t) c =
          (vs ++ [⟨t.next_id, c, some p, false⟩], (t.add_node c (some p) false).2) := by
        simp only [replyStep]
        rw [if_neg hdup, add_node_fst]
      have hded : foldlDedup (vs.map NodeView.content) (c :: cs)
          = foldlDedup (vs.map NodeView.content ++ [c]) cs := by
        simp only [foldlDedup, List.foldl_cons]
        rw [if_neg hdup]
      rw [hstep, hded]
      have hkey' := add_node_keyLt hkey c (some p) false
      have hlt' : p < (t.add_node c (some p) false).2.next_id := by
        rw [add_node_next]
        omega
      have hvs' : ∀ v ∈ vs ++ [⟨t.next_id, c, some p, false⟩],
          ViewOk p (t.add_node c (some p) false).2 v := by
        intro v hv
        rcases List.mem_append.mp hv with hold | hnew
        · exact ViewOk_add (hvs v hold) c false
        · have hv' : v = ⟨t.next_id, c, some p, false⟩ := by simpa using hnew
          rw [hv']
          exact ViewOk_new hkey hlt c
      have hd := ih (t.add_node c (some p) false).2
        (vs ++ [⟨t.next_id, c, some p, false⟩]) hkey' hlt' hvs'
      refine ⟨?_, ?_, hd.2.2⟩
      · have h1 := hd.1
        simpa using h1
      · have h2 := hd.2.1
        have hlen := add_node_length t c (some p) false
        simp only [List.length_append, List.length_singleton] at h2
        omega

theorem add_node_stores {t : ChatTree}
    (hkey : ∀ k nd, findNode k t.nodes = some nd → k < t.next_id)
    (c : String) (pid : Option Nat) (u : Bool) :
    findNode t.next_id (t.add_node c pid u).2.nodes = some ⟨t.next_id, c, pid, [], u⟩ := by
  have hfresh := fresh_of_keyLt hkey
  by_cases hr : t.root_id = none
  · rw [add_node_eq_root_none c pid u hr]
    exact findNode_snoc_new hfresh
  · cases pid with
    | none =>
      rw [add_node_eq_dangling c none u hr (fun q hq => Option.noConfusion hq)]
      exact findNode_snoc_new hfresh
    | some p =>
      by_cases hres : (findNode p t.nodes).isSome
      · rw [add_node_eq_resolving c u hr hres]
        exact findNode_upd_snoc_new hfresh
      · rw [add_node_eq_dangling c (some p) u hr (dangling_of_not_isSome hres)]
        exact findNode_snoc_new hfresh

theorem sampleTree_reachable : Reachable sampleTree :=
  Reachable.reset _ Reachable.init

theorem sampleTree2_reachable : Reachable sampleTree2 :=
  Reachable.add _ _ _ _ sampleTree_reachable
    (by intro p hp; injection hp with h; subst h; decide)

/-- Concrete reachable state holding an orphan: reset twice (so id 0 is a
stale, cleared id), then add a node naming 0 as its parent. -/
def orphanTree : ChatTree :=
  ((init_chat_tree (init_chat_tree ChatTree.init)).add_node "Hi" (some 0) true).2

theorem orphanTree_reachable : Reachable orphanTree :=
  Reachable.add _ _ _ _ (Reachable.reset _ (Reachable.reset _ Reachable.init))
    (by intro p hp; injection hp with h; subst h; decide)

/-- C1 counterexample: in the startup tree, the history walk started at the
greeting node's own id 0 returns a chain consisting of that node itself, so
the node is not excluded, and its `parent_id` is `none`, so the last
element's id (0) does not equal the node's `parentId` — the claim as stated
fails for the walk started at n's id. -/
theorem C1_counterexample :
    ∃ nd, findNode 0 sampleTree.nodes = some nd ∧
      chainNodes sampleTree.nodes sampleTree.nodes.length (some 0) = [nd] ∧
      nd.parent_id = none ∧ nd.parent_id ≠ some nd.id :=
  ⟨⟨0, "Hello! How can I assist you today?", none, [], false⟩, rfl, rfl, rfl,
    fun h => Option.noConfusion h⟩

/-- C1 (amended): for every node n stored in a reachable tree, the
history-building walk of the chat handler started at n's parentId (rather
than at n's id) returns a root-first sequence in which each element's id
equals the next element's parentId, n itself is excluded, and the last
element's id (when the chain is nonempty) equals n's parentId. The walk
started at n's own id instead ends with n itself. -/
theorem C1_ancestor_chain {t : ChatTree} (ht : Reachable t) (k : Nat) (nd : Node)
    (h : findNode k t.nodes = some nd) :
    List.Chain' (fun a b => b.parent_id = some a.id)
        (chainNodes t.nodes t.nodes.length nd.parent_id)
    ∧ (∀ x ∈ chainNodes t.nodes t.nodes.length nd.parent_id, x.id ≠ nd.id)
    ∧ (∀ last, (chainNodes t.nodes t.nodes.length nd.parent_id).getLast? = some last →
        some last.id = nd.parent_id) := by
  have hI := reachable_inv ht
  have hid := hI.keyId
  have hdec := hI.parentLt
  refine ⟨chainNodes_chain' hid _ _, ?_, ?_⟩
  · intro x hx
    rcases hpar : nd.parent_id with _ | q
    · rw [hpar, chainNodes_none] at hx
      cases hx
    · rw [hpar] at hx
      have hxle := chainNodes_id_le hid hdec _ q x hx
      have hqk : q < k := hI.parentLt _ _ h q hpar
      have hidk := hI.keyId _ _ h
      rw [hidk]
      omega
  · intro last hlast
    rcases hpar : nd.parent_id with _ | q
    · rw [hpar, chainNodes_none] at hlast
      cases hlast
    · rw [hpar] at hlast
      obtain ⟨hlid, -⟩ := chainNodes_getLast hid hlast
      rw [hlid]

/-- Witness for C1: the amended statement instantiated at the user node
(id 1, parent 0) of the two-node sample tree. -/
theorem C1_ancestor_chain_witness :
    List.Chain' (fun a b => b.parent_id = some a.id)
        (chainNodes sampleTree2.nodes sampleTree2.nodes.length (some 0))
    ∧ (∀ x ∈ chainNodes sampleTree2.nodes sampleTree2.nodes.length (some 0),
        x.id ≠ (1 : Nat))
    ∧ (∀ last, (chainNodes sampleTree2.nodes sampleTree2.nodes.length (some 0)).getLast?
        = some last → some last.id = some 0) :=
  C1_ancestor_chain sampleTree2_reachable 1 ⟨1, "Hi", some 0, [], true⟩ rfl

/-- C2 counterexample: submitting a user turn with no credential fails with
the credential-missing error and leaves the tree untouched, refuting the
claim that a user turn always succeeds regardless of credential. -/
theorem C2_counterexample :
    chat sampleTree "Hi" none true none (fun _ => .ok []) =
      (.error .credentialMissing, sampleTree) := rfl

/-- C2 (amended): submitting a user turn with a (nonempty) credential makes
no external call (the result does not depend on the provider), creates
exactly one node via addNode with isUser = true, and returns the view
{id, content, parentId, isUser} of that node; with no credential it fails
with CredentialMissing before any tree mutation. -/
theorem C2_submit_user_turn {t : ChatTree} (ht : Reachable t) (prompt : String)
    (pid : Option Nat) (key : String) (hk : key ≠ "")
    (provider provider2 : List Msg → Except Unit (List String)) :
    chat t prompt pid true (some key) provider =
      (.ok (.userView ⟨t.next_id, prompt, pid, true⟩), (t.add_node prompt pid true).2)
    ∧ (t.add_node prompt pid true).2.nodes.length = t.nodes.length + 1
    ∧ findNode t.next_id (t.add_node prompt pid true).2.nodes =
        some ⟨t.next_id, prompt, pid, [], true⟩
    ∧ chat t prompt pid true (some key) provider = chat t prompt pid true (some key) provider2
    ∧ chat t prompt pid true none provider = (.error .credentialMissing, t) := by
  refine ⟨chat_user t prompt pid key provider hk, add_node_length t prompt pid true,
    add_node_stores (reachable_inv ht).keyLt prompt pid true, ?_, rfl⟩
  rw [chat_user t prompt pid key provider hk, chat_user t prompt pid key provider2 hk]

/-- Witness for C2: the amended statement at the startup tree with prompt
"Hi" under the root and credential "k". -/
theorem C2_submit_user_turn_witness :
    chat sampleTree "Hi" (some 0) true (some "k") (fun _ => .ok []) =
      (.ok (.userView ⟨1, "Hi", some 0, true⟩), (sampleTree.add_node "Hi" (some 0) true).2)
    ∧ (sampleTree.add_node "Hi" (some 0) true).2.nodes.length = sampleTree.nodes.length + 1
    ∧ findNode 1 (sampleTree.add_node "Hi" (some 0) true).2.nodes =
        some ⟨1, "Hi", some 0, [], true⟩
    ∧ chat sampleTree "Hi" (some 0) true (some "k") (fun _ => .ok []) =
        chat sampleTree "Hi" (some 0) true (some "k") (fun _ => .error ())
    ∧ chat sampleTree "Hi" (some 0) true none (fun _ => .ok []) =
        (.error .credentialMissing, sampleTree) :=
  C2_submit_user_turn sampleTree_reachable "Hi" (some 0) "k" (by decide)
    (fun _ => .ok []) (fun _ => .error ())

/-- C3 counterexample: with a credential present and a provider returning
zero candidates, the chat handler succeeds with an empty reply list and an
unchanged tree instead of failing with ProviderError. -/
theorem C3_counterexample :
    chat sampleTree "q" none false (some "k") (fun _ => .ok []) =
      (.ok (.replies []), sampleTree)
    ∧ (chat sampleTree "q" none false (some "k") (fun _ => .ok [])).1 ≠
        .error .providerError :=
  ⟨rfl, fun h => Except.noConfusion h⟩

/-- C3 (amended): if the completion provider errors, the chat handler
surfaces ProviderError and the tree's node mapping is unchanged; if the
provider returns zero candidates, the handler instead succeeds with an
empty reply list, also leaving the mapping unchanged (no node created in
either case). -/
theorem C3_provider_failure (t : ChatTree) (prompt : String) (pid : Option Nat)
    (key : String) (hk : key ≠ "")
    (provider : List Msg → Except Unit (List String)) :
    (provider (historyOf t pid prompt) = .error () →
      chat t prompt pid false (some key) provider = (.error .providerError, t))
    ∧ (provider (historyOf t pid prompt) = .ok [] →
      chat t prompt pid false (some key) provider = (.ok (.replies []), t)) := by
  constructor
  · intro h
    exact chat_replies_error t prompt pid key provider hk h
  · intro h
    rw [chat_replies_ok t prompt pid key provider [] hk h]
    rfl

/-- Witness for C3: both branches of the amended statement at the startup
tree, with a failing provider stub and an empty-candidates provider stub. -/
theorem C3_provider_failure_witness :
    chat sampleTree "q" none false (some "k") (fun _ => .error ()) =
      (.error .providerError, sampleTree)
    ∧ chat sampleTree "q" none false (some "k") (fun _ => .ok []) =
      (.ok (.replies []), sampleTree) :=
  ⟨(C3_provider_failure sampleTree "q" none "k" (by decide) (fun _ => .error ())).1 rfl,
    (C3_provider_failure sampleTree "q" none "k" (by decide) (fun _ => .ok [])).2 rfl⟩

/-- C4 counterexample: a reachable state (reset twice, then addNode with
the stale parent id 0) stores a node whose parentId does not exist as a key
of the nodes mapping, refuting the claim that every id referenced as a
parentId exists in the mapping. -/
theorem C4_counterexample :
    Reachable orphanTree ∧
    ∃ nd, findNode 2 orphanTree.nodes = some nd ∧ nd.parent_id = some 0 ∧
      findNode 0 orphanTree.nodes = none :=
  ⟨orphanTree_reachable, ⟨2, "Hi", some 0, [], true⟩, rfl, rfl, rfl⟩

/-- C4 (amended): in every reachable tree state, every id appearing in any
node's children list exists as a key of the nodes mapping; ids referenced
as a parentId may dangle (orphan nodes are permitted). -/
theorem C4_child_refs_exist {t : ChatTree} (ht : Reachable t) (k : Nat) (nd : Node)
    (h : findNode k t.nodes = some nd) (c : Nat) (hc : c ∈ nd.children) :
    ∃ cnd, findNode c t.nodes = some cnd := by
  obtain ⟨cnd, hcnd, -⟩ := (reachable_inv ht).childMem _ _ h c hc
  exact ⟨cnd, hcnd⟩

/-- Witness for C4: the amended statement at the root of the two-node
sample tree, whose children list holds the id 1. -/
theorem C4_child_refs_exist_witness :
    ∃ cnd, findNode 1 sampleTree2.nodes = some cnd :=
  C4_child_refs_exist sampleTree2_reachable 0
    ⟨0, "Hello! How can I assist you today?", none, [1], false⟩ rfl 1 (by decide)

/-- C5: a requestReplies call with a resolving parentId and a provider stub
returning candidates creates one node per unique candidate content (exact
string equality, first-occurrence order): the returned views list the
deduplicated contents in order, every view carries the supplied parentId
and isUser = false, the mapping grows by exactly the number of unique
contents, and each view's id maps to a stored node with that content,
parent, and author tag. -/
theorem C5_reply_dedup {t : ChatTree} (ht : Reachable t) (prompt key : String)
    (hk : key ≠ "") (p : Nat) (pnd : Node) (hres : findNode p t.nodes = some pnd)
    (cs : List String) :
    ∃ views t2,
      chat t prompt (some p) false (some key) (fun _ => .ok cs) =
        (.ok (.replies views), t2)
      ∧ views.map NodeView.content = dedupFirst cs
      ∧ (∀ v ∈ views, v.parent_id = some p ∧ v.is_user = false)
      ∧ t2.nodes.length = t.nodes.length + (dedupFirst cs).length
      ∧ (∀ v ∈ views, ∃ nd, findNode v.id t2.nodes = some nd ∧ nd.content = v.content
          ∧ nd.parent_id = some p ∧ nd.is_user = false) := by
  have hkey := (reachable_inv ht).keyLt
  have hlt : p < t.next_id := hkey _ _ hres
  have hspec := replyFold_spec p cs t [] hkey hlt (by intro v hv; cases hv)
  refine ⟨(cs.foldl (replyStep (some p)) ([], t)).1, (cs.foldl (replyStep (some p)) ([], t)).2,
    chat_replies_ok t prompt (some p) key _ cs hk rfl, ?_, ?_, ?_, ?_⟩
  · exact hspec.1
  · intro v hv
    obtain ⟨-, -, h3, h4, -⟩ := hspec.2.2 v hv
    exact ⟨h3, h4⟩
  · have h2 := hspec.2.1
    have hlen : (cs.foldl (replyStep (some p)) ([], t)).1.length = (dedupFirst cs).length := by
      have hcg := congrArg List.length hspec.1
      simpa [dedupFirst] using hcg
    simp only [List.length_nil] at h2
    omega
  · intro v hv
    obtain ⟨-, -, -, -, nd, hnd, hcont, hpar, hu⟩ := hspec.2.2 v hv
    exact ⟨nd, hnd, hcont, hpar, hu⟩

/-- Witness for C5: the claim's scenario — provider stub returning the
candidates "I'm good", "I'm good", "Great!" under the user node of the
two-node sample tree — with the deduplicated list evaluated concretely to
its two unique contents. -/
theorem C5_reply_dedup_witness :
    dedupFirst ["I\x27m good", "I\x27m good", "Great!"] = ["I\x27m good", "Great!"]
    ∧ (dedupFirst ["I\x27m good", "I\x27m good", "Great!"]).length = 2
    ∧ ∃ views t2,
        chat sampleTree2 "How are you?" (some 1) false (some "k")
          (fun _ => .ok ["I\x27m good", "I\x27m good", "Great!"]) =
          (.ok (.replies views), t2)
        ∧ views.map NodeView.content = dedupFirst ["I\x27m good", "I\x27m good", "Great!"]
        ∧ (∀ v ∈ views, v.parent_id = some 1 ∧ v.is_user = false)
        ∧ t2.nodes.length = sampleTree2.nodes.length
            + (dedupFirst ["I\x27m good", "I\x27m good", "Great!"]).length
        ∧ (∀ v ∈ views, ∃ nd, findNode v.id t2.nodes = some nd ∧ nd.content = v.content
            ∧ nd.parent_id = some 1 ∧ nd.is_user = false) :=
  ⟨rfl, rfl,
    C5_reply_dedup sampleTree2_reachable "How are you?" "k" (by decide) 1
      ⟨1, "Hi", some 0, [], true⟩ rfl ["I\x27m good", "I\x27m good", "Great!"]⟩

/-- C6: a requestReplies call with no credential fails with
CredentialMissing before any tree mutation or provider call: for every tree
state and every provider, the result is the credential error and the
returned state is the input state unchanged (the equation holds uniformly
in the provider, so the provider is never consulted). -/
theorem C6_credential_missing (t : ChatTree) (prompt : String) (pid : Option Nat)
    (provider : List Msg → Except Unit (List String)) :
    chat t prompt pid false none provider = (.error .credentialMissing, t) := rfl

/-- C7: in every reachable tree state, a node's children list contains only
ids of stored nodes whose parentId equals that node's id, and every node
whose parentId resolves appears in that parent's children exactly once. -/
theorem C7_children_linkage {t : ChatTree} (ht : Reachable t) (k : Nat) (nd : Node)
    (h : findNode k t.nodes = some nd) :
    (∀ c ∈ nd.children, ∃ cnd, findNode c t.nodes = some cnd ∧ cnd.parent_id = some k)
    ∧ (∀ p pnd, nd.parent_id = some p → findNode p t.nodes = some pnd →
        pnd.children.count k = 1) := by
  have hI := reachable_inv ht
  exact ⟨hI.childMem _ _ h, fun p pnd hp hpnd => hI.childCount _ _ h p hp _ hpnd⟩

/-- Witness for C7: the statement at the user node (id 1, parent 0) of the
two-node sample tree; the root's children list holds 1 exactly once. -/
theorem C7_children_linkage_witness :
    (∀ c ∈ ([] : List Nat),
      ∃ cnd, findNode c sampleTree2.nodes = some cnd ∧ cnd.parent_id = some 1)
    ∧ (∀ p pnd, (some 0 : Option Nat) = some p → findNode p sampleTree2.nodes = some pnd →
        pnd.children.count 1 = 1) :=
  C7_children_linkage sampleTree2_reachable 1 ⟨1, "Hi", some 0, [], true⟩ rfl

/-- C8: for every addNode call on a reachable state, the returned id is the
fresh one (not previously a key); the node is stored under it with exactly
the supplied content, parentId, and isUser and an empty children list; if
no root exists the new node becomes the root (keeping whatever parentId was
passed in, as the stored node witnesses); and if the supplied parentId does
not resolve, the node is still created, appended as an orphan with the
mapping otherwise untouched. -/
theorem C8_add_node {t : ChatTree} (ht : Reachable t) (c : String) (pid : Option Nat)
    (u : Bool) :
    (t.add_node c pid u).1 = t.next_id
    ∧ findNode (t.add_node c pid u).1 t.nodes = none
    ∧ findNode (t.add_node c pid u).1 (t.add_node c pid u).2.nodes =
        some ⟨t.next_id, c, pid, [], u⟩
    ∧ (t.root_id = none → (t.add_node c pid u).2.root_id = some (t.add_node c pid u).1)
    ∧ (∀ p, pid = some p → findNode p t.nodes = none →
        (t.add_node c pid u).2.nodes =
          t.nodes ++ [((t.add_node c pid u).1, ⟨t.next_id, c, pid, [], u⟩)]) := by
  have hkey := (reachable_inv ht).keyLt
  refine ⟨add_node_fst t c pid u, ?_, ?_, ?_, ?_⟩
  · rw [add_node_fst]
    exact fresh_of_keyLt hkey
  · rw [add_node_fst]
    exact add_node_stores hkey c pid u
  · intro hr
    rw [add_node_fst, add_node_eq_root_none c pid u hr]
  · intro p hp hdang
    subst hp
    rw [add_node_fst]
    by_cases hr : t.root_id = none
    · rw [add_node_eq_root_none c (some p) u hr]
    · rw [add_node_eq_dangling c (some p) u hr
        (fun q hq => by injection hq with hpq; subst hpq; exact hdang)]

/-- Witness for C8: adding a node with the non-resolving parent id 5 to the
empty initial tree — it becomes the root while keeping the dangling
parentId, is stored under the fresh id 0, and the mapping is the old one
with just that entry appended. -/
theorem C8_add_node_witness :
    (ChatTree.init.add_node "x" (some 5) true).1 = 0
    ∧ findNode 0 ChatTree.init.nodes = none
    ∧ findNode 0 (ChatTree.init.add_node "x" (some 5) true).2.nodes =
        some ⟨0, "x", some 5, [], true⟩
    ∧ (ChatTree.init.add_node "x" (some 5) true).2.root_id = some 0
    ∧ (ChatTree.init.add_node "x" (some 5) true).2.nodes =
        ChatTree.init.nodes ++ [(0, ⟨0, "x", some 5, [], true⟩)] := by
  obtain ⟨h1, h2, h3, h4, h5⟩ := C8_add_node Reachable.init "x" (some 5) true
  exact ⟨h1, h2, h3, h4 rfl, h5 5 rfl rfl⟩

/-- C9: resetting any prior tree state yields a tree holding exactly one
node — the fixed greeting, isUser = false — whose id is the rootId, and
resetting twice in a row yields the same one-node outcome as resetting
once. -/
theorem C9_reset (t : ChatTree) :
    ((init_chat_tree t).nodes =
        [(t.next_id, ⟨t.next_id, "Hello! How can I assist you today?", none, [], false⟩)]
      ∧ (init_chat_tree t).nodes.length = 1
      ∧ (init_chat_tree t).root_id = some t.next_id)
    ∧ ((init_chat_tree (init_chat_tree t)).nodes =
        [(t.next_id + 1,
          ⟨t.next_id + 1, "Hello! How can I assist you today?", none, [], false⟩)]
      ∧ (init_chat_tree (init_chat_tree t)).nodes.length = 1
      ∧ (init_chat_tree (init_chat_tree t)).root_id = some (t.next_id + 1)) :=
  ⟨⟨rfl, rfl, rfl⟩, ⟨rfl, rfl, rfl⟩⟩

/-- C10: in every reachable tree state, the history walk from any starting
reference reaches its final value within `|nodes|` steps: giving the walk
any amount of extra fuel beyond `|nodes|` does not change its result. -/
theorem C10_walk_terminates {t : ChatTree} (ht : Reachable t) (start : Option Nat)
    (extra : Nat) :
    chainNodes t.nodes (t.nodes.length + extra) start =
      chainNodes t.nodes t.nodes.length start :=
  chainNodes_stab (reachable_inv ht).parentLt start extra

/-- Witness for C10: the statement at the two-node sample tree, walking
from the user node's id with five steps of extra fuel. -/
theorem C10_walk_terminates_witness :
    chainNodes sampleTree2.nodes (sampleTree2.nodes.length + 5) (some 1) =
      chainNodes sampleTree2.nodes sampleTree2.nodes.length (some 1) :=
  C10_walk_terminates sampleTree2_reachable (some 1) 5

end TreeChat
